import Mathlib

/-!
Shallow embedding of the binary-decoding core of `main.py`:
the RPG-Maker fake-header cipher (`Decrypter`), the Godot PCK
container reader (`extract_godot_pck_builtin`), and the STEX texture
transcoder (`convert_stex_to_png`).  Byte buffers are `List Nat`
(each element a byte value), keys are `List Char` (the hex string),
and fallible code returns `Except`.
-/

set_option maxRecDepth 100000

instance {ε α : Type} [DecidableEq ε] [DecidableEq α] : DecidableEq (Except ε α) := fun
  | .ok a, .ok b =>
    if h : a = b then .isTrue (by rw [h]) else .isFalse (fun hc => by cases hc; exact h rfl)
  | .ok _, .error _ => .isFalse (fun hc => by cases hc)
  | .error _, .ok _ => .isFalse (fun hc => by cases hc)
  | .error e, .error f =>
    if h : e = f then .isTrue (by rw [h]) else .isFalse (fun hc => by cases hc; exact h rfl)

/-- Error taxonomy for the cipher: mirrors the exceptions raised by the
Python code (`Exception` messages and builtin `IndexError` / `ValueError`). -/
inductive CipherError where
  | emptyInput
  | headerMismatch
  | headerBuildMismatch
  | indexError
  | valueError
deriving DecidableEq

/-- One hex digit, as parsed by Python `int(c, 16)`; non-hex characters
raise `ValueError`. -/
def hexDigit (c : Char) : Except CipherError Nat :=
  if '0' ≤ c ∧ c ≤ '9' then .ok (c.toNat - 48)
  else if 'a' ≤ c ∧ c ≤ 'f' then .ok (c.toNat - 87)
  else if 'A' ≤ c ∧ c ≤ 'F' then .ok (c.toNat - 55)
  else .error .valueError

/-- Python `int(s, 16)` on the 1- or 2-character chunks produced by
`split_encryption_code` / the fake-header builder (empty slices raise). -/
def int16 (cs : List Char) : Except CipherError Nat :=
  match cs with
  | [c] => hexDigit c
  | [c1, c2] =>
    match hexDigit c1, hexDigit c2 with
    | .ok h, .ok l => .ok (16 * h + l)
    | .error e, _ => .error e
    | _, .error e => .error e
  | _ => .error .valueError

/-- `c` is a hexadecimal digit (the domain on which `hexDigit` succeeds). -/
def isHex (c : Char) : Bool :=
  decide (('0' ≤ c ∧ c ≤ '9') ∨ ('a' ≤ c ∧ c ≤ 'f') ∨ ('A' ≤ c ∧ c ≤ 'F'))

/-- A key string made only of hex digits (the spec's `CipherKey` domain). -/
abbrev HexKey (k : List Char) : Prop := ∀ c ∈ k, isHex c = true

/-- The cipher state: `main.py` lines 690-710 (`Decrypter.__init__` plus the
lazily-defaulted configuration fields resolved by `get_header_len`,
`get_signature`, `get_version`, `get_remain`). -/
structure Decrypter where
  encryptCode : List Char
  ignoreFakeHeader : Bool
  headerLen : Nat
  signature : List Char
  version : List Char
  remain : List Char
  pngHeaderLen : Option Nat

def default_signature : List Char := "5250474d56000000".toList
def default_version : List Char := "000301".toList
def default_remain : List Char := "0000000000".toList

/-- `Decrypter(encryption_key)`: a freshly constructed instance, with the
default configuration the getters resolve to. -/
def mkDecrypter (k : List Char) : Decrypter :=
  { encryptCode := k
    ignoreFakeHeader := false
    headerLen := 16
    signature := default_signature
    version := default_version
    remain := default_remain
    pngHeaderLen := none }

/-- `Decrypter.split_encryption_code`: the key cut into 2-character chunks
(the final chunk may have a single character; an empty key gives `[]`). -/
def split_encryption_code : List Char → List (List Char)
  | [] => []
  | [c] => [[c]]
  | c1 :: c2 :: rest => [c1, c2] :: split_encryption_code rest

/-- The canonical PNG header constant of `Decrypter.get_normal_png_header`. -/
def normalPngHeaderBytes : List Nat :=
  [0x89, 0x50, 0x4E, 0x47, 0x0D, 0x0A, 0x1A, 0x0A,
   0x00, 0x00, 0x00, 0x0D, 0x49, 0x48, 0x44, 0x52]

/-- `Decrypter.get_normal_png_header(length)`. -/
def get_normal_png_header (length : Nat) : List Nat :=
  normalPngHeaderBytes.take length

/-- Loop body of `Decrypter.build_fake_header`: byte `i` is
`int(header_structure[2*i : 2*i+2], 16)`, for `i < header_len`. -/
def build_go : List Char → Nat → Except CipherError (List Nat)
  | _, 0 => .ok []
  | cs, n + 1 =>
    match int16 (cs.take 2), build_go (cs.drop 2) n with
    | .ok v, .ok rest => .ok (v :: rest)
    | .error e, _ => .error e
    | _, .error e => .error e

/-- `Decrypter.build_fake_header`. -/
def Decrypter.build_fake_header (d : Decrypter) : Except CipherError (List Nat) :=
  build_go (d.signature ++ d.version ++ d.remain) d.headerLen

/-- Loop of `Decrypter.verify_fake_header`: compare `file_header[i]` with
`fake_header[i]` for `i < header_len`, returning `false` at the first
difference; reading past the end of `file_header` is an `IndexError`. -/
def verify_go : List Nat → List Nat → Except CipherError Bool
  | _, [] => .ok true
  | [], _ :: _ => .error .indexError
  | a :: xs, b :: ys => if a = b then verify_go xs ys else .ok false

/-- `Decrypter.verify_fake_header(file_header)`. -/
def Decrypter.verify_fake_header (d : Decrypter) (fileHeader : List Nat) :
    Except CipherError Bool :=
  match d.build_fake_header with
  | .ok fake => verify_go fileHeader fake
  | .error e => .error e

/-- Loop of `Decrypter.x_or_bytes`: for `i < min(header_len, len(buffer))`,
if `i < len(encryption_code_array)` then XOR byte `i` with
`int(encryption_code_array[i], 16)`. -/
def x_or_go : List (List Char) → List Nat → Nat → Except CipherError (List Nat)
  | _, buf, 0 => .ok buf
  | [], buf, _ + 1 => .ok buf
  | _ :: _, [], _ + 1 => .ok []
  | c :: cs, b :: bs, n + 1 =>
    match int16 c, x_or_go cs bs n with
    | .ok v, .ok rest => .ok ((b ^^^ v) :: rest)
    | .error e, _ => .error e
    | _, .error e => .error e

/-- `Decrypter.x_or_bytes(array_buffer)`. -/
def Decrypter.x_or_bytes (d : Decrypter) (buf : List Nat) :
    Except CipherError (List Nat) :=
  x_or_go (split_encryption_code d.encryptCode) buf (min d.headerLen buf.length)

/-- `Decrypter.encrypt(array_buffer)`: XOR the first `header_len` bytes,
prepend the fake header, then re-verify the freshly built header. -/
def Decrypter.encrypt (d : Decrypter) (buf : List Nat) :
    Except CipherError (List Nat) :=
  if buf = [] then .error .emptyInput
  else
    match d.x_or_bytes buf with
    | .error e => .error e
    | .ok xored =>
      match d.build_fake_header with
      | .error e => .error e
      | .ok fake =>
        let tmp := fake ++ xored
        match d.verify_fake_header (tmp.take d.headerLen) with
        | .error e => .error e
        | .ok true => .ok tmp
        | .ok false => .error .headerBuildMismatch

/-- `Decrypter.decrypt(array_buffer)`: unless `ignore_fake_header`,
verify the leading fake header; then drop it and XOR the remainder. -/
def Decrypter.decrypt (d : Decrypter) (buf : List Nat) :
    Except CipherError (List Nat) :=
  if buf = [] then .error .emptyInput
  else if d.ignoreFakeHeader then d.x_or_bytes (buf.drop d.headerLen)
  else
    match d.verify_fake_header (buf.take d.headerLen) with
    | .error e => .error e
    | .ok true => d.x_or_bytes (buf.drop d.headerLen)
    | .ok false => .error .headerMismatch

/-- `Decrypter.restore_png_header(array_buffer)`: drop `2 * header_len`
bytes and put the canonical PNG header (truncated to `header_len`,
itself capped at 16 bytes) in front of what remains. -/
def Decrypter.restore_png_header (d : Decrypter) (buf : List Nat) :
    Except CipherError (List Nat) :=
  if buf = [] then .error .emptyInput
  else
    let png := get_normal_png_header (d.pngHeaderLen.getD d.headerLen)
    .ok (png ++ buf.drop (png.length * 2))

/-- The decoded key-byte sequence (spec language: "the key bytes",
one byte per 2-character chunk of the hex key). -/
def keyByteValues (cs : List (List Char)) : List Nat :=
  cs.map (fun c => match int16 c with | .ok v => v | .error _ => 0)

/-- Modelled from the spec wording of the XOR transform: position `i`
of the buffer is XORed against key byte `i`; positions with no matching
key byte are left unmodified. -/
def xorWithKeyAligned : List Nat → List Nat → List Nat
  | _, [] => []
  | [], b :: bs => b :: bs
  | v :: ks, b :: bs => (b ^^^ v) :: xorWithKeyAligned ks bs

/-! ### Godot PCK container reader (`extract_godot_pck_builtin`) -/

/-- Errors of the PCK parsing path: a failed magic probe, a
`struct.unpack` on truncated data (or an out-of-range seek), and a
failed UTF-8 decode of an entry path. -/
inductive PckError where
  | invalidMagic
  | truncated
  | badUtf8
deriving DecidableEq

/-- A parsed member record (`files_info` element): path bytes, absolute
offset (entry offset plus container base), and size. -/
structure PckEntry where
  path : List Nat
  offset : Nat
  size : Nat
deriving DecidableEq

/-- `f.seek(pos); f.read(n)` on an in-memory file: a short read past the
end returns fewer bytes and is not an error. -/
def readBytes (data : List Nat) (pos n : Nat) : List Nat :=
  (data.drop pos).take n

/-- Little-endian value of a byte list (first byte least significant). -/
def leVal (bs : List Nat) : Nat :=
  bs.foldr (fun b acc => b + 256 * acc) 0

/-- The `n` little-endian bytes of `v` (for building test containers and
the self-extracting footer). -/
def leBytes : Nat → Nat → List Nat
  | 0, _ => []
  | n + 1, v => v % 256 :: leBytes n (v / 256)

/-- `struct.unpack('<I', f.read(4))`: errors unless 4 bytes are available. -/
def readU32 (data : List Nat) (pos : Nat) : Except PckError Nat :=
  if (readBytes data pos 4).length = 4 then .ok (leVal (readBytes data pos 4))
  else .error .truncated

/-- `struct.unpack('<Q', f.read(8))`: errors unless 8 bytes are available. -/
def readU64 (data : List Nat) (pos : Nat) : Except PckError Nat :=
  if (readBytes data pos 8).length = 8 then .ok (leVal (readBytes data pos 8))
  else .error .truncated

/-- `b'GDPC'`. -/
def gdpcMagic : List Nat := [0x47, 0x44, 0x50, 0x43]

/-- A UTF-8 continuation byte. -/
def isCont (b : Nat) : Bool := decide (0x80 ≤ b ∧ b ≤ 0xBF)

/-- Strict UTF-8 validity, as enforced by Python `bytes.decode('utf-8')`
(rejecting overlong forms, surrogates and values above U+10FFFF). -/
def utf8Valid : List Nat → Bool
  | [] => true
  | b :: rest =>
    if b ≤ 0x7F then utf8Valid rest
    else if 0xC2 ≤ b ∧ b ≤ 0xDF then
      match rest with
      | c1 :: r => isCont c1 && utf8Valid r
      | [] => false
    else if b = 0xE0 then
      match rest with
      | c1 :: c2 :: r => decide (0xA0 ≤ c1 ∧ c1 ≤ 0xBF) && isCont c2 && utf8Valid r
      | _ => false
    else if (0xE1 ≤ b ∧ b ≤ 0xEC) ∨ b = 0xEE ∨ b = 0xEF then
      match rest with
      | c1 :: c2 :: r => isCont c1 && isCont c2 && utf8Valid r
      | _ => false
    else if b = 0xED then
      match rest with
      | c1 :: c2 :: r => decide (0x80 ≤ c1 ∧ c1 ≤ 0x9F) && isCont c2 && utf8Valid r
      | _ => false
    else if b = 0xF0 then
      match rest with
      | c1 :: c2 :: c3 :: r =>
        decide (0x90 ≤ c1 ∧ c1 ≤ 0xBF) && isCont c2 && isCont c3 && utf8Valid r
      | _ => false
    else if 0xF1 ≤ b ∧ b ≤ 0xF3 then
      match rest with
      | c1 :: c2 :: c3 :: r => isCont c1 && isCont c2 && isCont c3 && utf8Valid r
      | _ => false
    else if b = 0xF4 then
      match rest with
      | c1 :: c2 :: c3 :: r =>
        decide (0x80 ≤ c1 ∧ c1 ≤ 0x8F) && isCont c2 && isCont c3 && utf8Valid r
      | _ => false
    else false

/-- The per-entry loop of `extract_godot_pck_builtin`: for each of the
declared entries read `path_len:u32`, `path_len` path bytes (decoded as
UTF-8), `offset:u64`, `size:u64`, and skip a 16-byte reserved block;
the stored offset is adjusted by the container base `pckStart`. -/
def readEntries (data : List Nat) (pckStart : Nat) :
    Nat → Nat → Except PckError (List PckEntry)
  | 0, _ => .ok []
  | n + 1, pos =>
    match readU32 data pos with
    | .error e => .error e
    | .ok pathLen =>
      let pbytes := readBytes data (pos + 4) pathLen
      if utf8Valid pbytes then
        let pos1 := pos + 4 + pbytes.length
        match readU64 data pos1, readU64 data (pos1 + 8) with
        | .ok off, .ok size =>
          let pos2 := pos1 + 16
          let reserved := readBytes data pos2 16
          match readEntries data pckStart n (pos2 + reserved.length) with
          | .ok rest => .ok (⟨pbytes, off + pckStart, size⟩ :: rest)
          | .error e => .error e
        | .error e, _ => .error e
        | _, .error e => .error e
      else .error .badUtf8

/-- The magic probe of `extract_godot_pck_builtin`: magic at offset 0,
else the trailing 12-byte footer (`base_offset:u64` then the magic),
whose base offset is taken as the container start. -/
def findPckStart (data : List Nat) : Except PckError Nat :=
  if readBytes data 0 4 = gdpcMagic then .ok 0
  else if data.length < 12 then .error .truncated
  else
    let footer := readBytes data (data.length - 12) 12
    if footer.drop 8 = gdpcMagic then .ok (leVal (footer.take 8))
    else .error .invalidMagic

/-- The header-parsing and entry-enumeration part of
`extract_godot_pck_builtin` (lines 957-1005): magic probe, version
quadruple, 64 reserved bytes, `file_count:u32`, then the entry table.
Returns the container base, the declared count and the member list. -/
def openPck (data : List Nat) : Except PckError (Nat × Nat × List PckEntry) :=
  match findPckStart data with
  | .error e => .error e
  | .ok pckStart =>
    let pos0 := pckStart + (readBytes data pckStart 4).length
    match readU32 data pos0, readU32 data (pos0 + 4),
          readU32 data (pos0 + 8), readU32 data (pos0 + 12) with
    | .ok _, .ok _, .ok _, .ok _ =>
      match readU32 data (pos0 + 80) with
      | .error e => .error e
      | .ok count =>
        match readEntries data pckStart count (pos0 + 84) with
        | .error e => .error e
        | .ok es => .ok (pckStart, count, es)
    | .error e, _, _, _ => .error e
    | _, .error e, _, _ => .error e
    | _, _, .error e, _ => .error e
    | _, _, _, .error e => .error e

/-- `f.seek(file_info['offset']); f.read(file_info['size'])` in the
extraction loop. -/
def read_member_bytes (data : List Nat) (e : PckEntry) : List Nat :=
  readBytes data e.offset e.size

/-- `u32` little-endian bytes (for building test containers). -/
def u32le (v : Nat) : List Nat := leBytes 4 v

/-- A self-extracting layout: a host executable of `host.length` bytes,
the container bytes, and the trailing 12-byte footer encoding the base
offset followed by the sentinel magic. -/
def appendedPck (host C : List Nat) : List Nat :=
  host ++ C ++ leBytes 8 host.length ++ gdpcMagic

/-- A concrete container: valid header at offset 0, one entry named `a`
with offset 0 and size 1000000 (far beyond the buffer length). -/
def cbuf : List Nat :=
  gdpcMagic ++ u32le 1 ++ u32le 3 ++ u32le 5 ++ u32le 0 ++
  List.replicate 64 0 ++ u32le 1 ++
  u32le 1 ++ [97] ++ leBytes 8 0 ++ leBytes 8 1000000 ++ List.replicate 16 0

/-- A concrete well-formed container: one entry named `a` with offset
125 and size 5, whose data is the final 5 bytes. -/
def cbuf2 : List Nat :=
  gdpcMagic ++ u32le 1 ++ u32le 3 ++ u32le 5 ++ u32le 0 ++
  List.replicate 64 0 ++ u32le 1 ++
  u32le 1 ++ [97] ++ leBytes 8 125 ++ leBytes 8 5 ++ List.replicate 16 0 ++
  [9, 8, 7, 6, 5]

/-! ### STEX texture transcoder (`convert_stex_to_png`) -/

/-- `b'\x89PNG\r\n\x1a\n'`. -/
def pngSig : List Nat := [0x89, 0x50, 0x4E, 0x47, 0x0D, 0x0A, 0x1A, 0x0A]

/-- `b'RIFF'`. -/
def riffSig : List Nat := [0x52, 0x49, 0x46, 0x46]

/-- `b'WEBP'`. -/
def webpTag : List Nat := [0x57, 0x45, 0x42, 0x50]

/-- `bytes.find(pat)`: index of the first occurrence of `pat`, if any. -/
def listFind (pat : List Nat) : List Nat → Option Nat
  | [] => if pat = [] then some 0 else none
  | x :: rest =>
    if (x :: rest).take pat.length = pat then some 0
    else (listFind pat rest).map (· + 1)

/-- What `convert_stex_to_png` persists: a PNG tail, a WEBP tail (written
to the sibling `.webp` path, possibly re-encoded by the optional Pillow
collaborator), or the raw blob unchanged (written to the `.stex` path). -/
inductive StexResult where
  | png (bytes : List Nat)
  | webp (bytes : List Nat)
  | raw (bytes : List Nat)
deriving DecidableEq

/-- The byte-level decision logic of `convert_stex_to_png` (lines
1041-1088): scan for the PNG signature, else for `RIFF` with `WEBP` at
relative offset 8, else fall back to the raw blob. -/
def convert_stex_to_png (stex : List Nat) : StexResult :=
  match listFind pngSig stex with
  | some k => .png (stex.drop k)
  | none =>
    match listFind riffSig stex with
    | some j =>
      if (stex.drop (j + 8)).take 4 = webpTag then .webp (stex.drop j)
      else .raw stex
    | none => .raw stex

/-! ### Output-path computation of the extraction loop -/

/-- `str.replace('res://', '')`: remove every occurrence, scanning left
to right. -/
def stripResAll : List Char → List Char
  | 'r' :: 'e' :: 's' :: ':' :: '/' :: '/' :: rest => stripResAll rest
  | c :: rest => c :: stripResAll rest
  | [] => []

/-- `os.path.join(a, b)` (POSIX): an absolute second part replaces the
first; otherwise the parts are joined with a single separator. -/
def osJoin (a b : List Char) : List Char :=
  if b.head? = some '/' then b
  else if a = [] then b
  else if a.getLast? = some '/' then a ++ b
  else a ++ '/' :: b

/-- `output_path = os.path.join(output_dir, file_info['path'].replace('res://', ''))`
(line 1015): the destination the extraction loop writes member bytes to,
with no further sanitisation. -/
def godotOutputPath (outputDir memberPath : List Char) : List Char :=
  osJoin outputDir (stripResAll memberPath)

/-- Split a path on `/` (filesystem semantics, for judging where a
written path actually lands). -/
def splitSlashAux : List Char → List Char → List (List Char)
  | cur, [] => [cur.reverse]
  | cur, '/' :: rest => cur.reverse :: splitSlashAux [] rest
  | cur, c :: rest => splitSlashAux (c :: cur) rest

def splitSlash (p : List Char) : List (List Char) := splitSlashAux [] p

/-- POSIX resolution of `.` and `..` segments against an accumulator
(filesystem semantics: `..` discards the previous segment). -/
def resolveSegs : List (List Char) → List (List Char) → List (List Char)
  | acc, [] => acc
  | acc, s :: rest =>
    if s = [] ∨ s = ['.'] then resolveSegs acc rest
    else if s = ['.', '.'] then resolveSegs acc.dropLast rest
    else resolveSegs (acc ++ [s]) rest

/-- The segments a relative path finally points at, after resolving
`.` and `..`. -/
def resolvedSegments (p : List Char) : List (List Char) :=
  resolveSegs [] (splitSlash p)

/-! ### Helper lemmas: the cipher -/

theorem hexDigit_ok {c : Char} (h : isHex c = true) : ∃ v, hexDigit c = .ok v := by
  unfold isHex at h
  unfold hexDigit
  rcases of_decide_eq_true h with h1 | h1 | h1 <;> simp [h1]
  · rcases Classical.em ('0' ≤ c ∧ c ≤ '9') with h2 | h2
    · simp [h2]
    · rcases Classical.em ('a' ≤ c ∧ c ≤ 'f') with h3 | h3 <;> simp [h2, h3, h1]
  · rcases Classical.em ('0' ≤ c ∧ c ≤ '9') with h2 | h2
    · simp [h2]
    · rcases Classical.em ('a' ≤ c ∧ c ≤ 'f') with h3 | h3 <;> simp [h2, h3, h1]

theorem int16_ok {cs : List Char} (hne : cs ≠ []) (hlen : cs.length ≤ 2)
    (hhex : ∀ c ∈ cs, isHex c = true) : ∃ v, int16 cs = .ok v := by
  match cs, hne, hlen with
  | [c], _, _ =>
    obtain ⟨v, hv⟩ := hexDigit_ok (hhex c (by simp))
    exact ⟨v, by simp [int16, hv]⟩
  | [c1, c2], _, _ =>
    obtain ⟨v1, hv1⟩ := hexDigit_ok (hhex c1 (by simp))
    obtain ⟨v2, hv2⟩ := hexDigit_ok (hhex c2 (by simp))
    exact ⟨16 * v1 + v2, by simp [int16, hv1, hv2]⟩

/-- Every chunk of a hex key parses. -/
def AllOk (css : List (List Char)) : Prop := ∀ cs ∈ css, ∃ v, int16 cs = .ok v

theorem allOk_split : ∀ (k : List Char), HexKey k → AllOk (split_encryption_code k)
  | [], _ => by intro cs h; simp [split_encryption_code] at h
  | [c], hk => by
    intro cs h
    simp [split_encryption_code] at h
    subst h
    exact int16_ok (by simp) (by simp) (fun x hx => hk x hx)
  | c1 :: c2 :: rest, hk => by
    intro cs h
    simp only [split_encryption_code, List.mem_cons] at h
    rcases h with rfl | h
    · exact int16_ok (by simp) (by simp) (fun x hx => by
        simp at hx
        rcases hx with rfl | rfl
        · exact hk x (by simp)
        · exact hk x (by simp))
    · exact allOk_split rest (fun x hx => hk x (by simp [hx])) cs h

theorem x_or_go_len :
    ∀ (n : Nat) (css : List (List Char)) (buf out : List Nat),
      x_or_go css buf n = .ok out → out.length = buf.length := by
  intro n
  induction n with
  | zero => intro css buf out h; simp [x_or_go] at h; simp [h]
  | succ n ih =>
    intro css buf out h
    match css, buf with
    | [], buf => simp [x_or_go] at h; simp [h]
    | c :: cs, [] => simp [x_or_go] at h; simp [← h]
    | c :: cs, b :: bs =>
      rw [x_or_go] at h
      cases hi : int16 c with
      | error e => rw [hi] at h; simp at h
      | ok v =>
        rw [hi] at h
        cases hr : x_or_go cs bs n with
        | error e => rw [hr] at h; simp at h
        | ok rest =>
          rw [hr] at h
          simp at h
          subst h
          simp [ih cs bs rest hr]

theorem x_or_go_invol :
    ∀ (n : Nat) (css : List (List Char)) (buf out : List Nat),
      x_or_go css buf n = .ok out → x_or_go css out n = .ok buf := by
  intro n
  induction n with
  | zero => intro css buf out h; simp [x_or_go] at h ⊢; simp [h]
  | succ n ih =>
    intro css buf out h
    match css, buf with
    | [], buf => simp [x_or_go] at h ⊢; simp [h]
    | c :: cs, [] =>
      simp [x_or_go] at h
      subst h
      simp [x_or_go]
    | c :: cs, b :: bs =>
      rw [x_or_go] at h
      cases hi : int16 c with
      | error e => rw [hi] at h; simp at h
      | ok v =>
        rw [hi] at h
        cases hr : x_or_go cs bs n with
        | error e => rw [hr] at h; simp at h
        | ok rest =>
          rw [hr] at h
          simp at h
          subst h
          rw [x_or_go, hi, ih cs bs rest hr]
          have hxor : b ^^^ v ^^^ v = b := by
            rw [Nat.xor_assoc, Nat.xor_self, Nat.xor_zero]
          simp [hxor]

theorem xorWithKeyAligned_nil (l : List Nat) : xorWithKeyAligned [] l = l := by
  cases l <;> rfl

theorem x_or_go_eq :
    ∀ (n : Nat) (css : List (List Char)) (buf : List Nat), AllOk css →
      x_or_go css buf n =
        .ok (xorWithKeyAligned (keyByteValues css) (buf.take n) ++ buf.drop n) := by
  intro n
  induction n with
  | zero =>
    intro css buf _
    simp [x_or_go, xorWithKeyAligned]
  | succ n ih =>
    intro css buf hAll
    match css, buf with
    | [], buf =>
      simp [x_or_go, keyByteValues, xorWithKeyAligned_nil]
    | c :: cs, [] =>
      simp [x_or_go]
      cases h : keyByteValues (c :: cs) <;> simp [xorWithKeyAligned]
    | c :: cs, b :: bs =>
      obtain ⟨v, hv⟩ := hAll c (by simp)
      rw [x_or_go, hv, ih cs bs (fun x hx => hAll x (by simp [hx]))]
      simp [keyByteValues, hv, xorWithKeyAligned]

theorem take_min {α : Type} (l : List α) (n : Nat) :
    l.take (min n l.length) = l.take n := by
  rcases Nat.le_total n l.length with h | h
  · rw [Nat.min_eq_left h]
  · rw [Nat.min_eq_right h, List.take_length, List.take_of_length_le h]

theorem drop_min {α : Type} (l : List α) (n : Nat) :
    l.drop (min n l.length) = l.drop n := by
  rcases Nat.le_total n l.length with h | h
  · rw [Nat.min_eq_left h]
  · rw [Nat.min_eq_right h, List.drop_length, List.drop_eq_nil_of_le h]

theorem x_or_bytes_eq (d : Decrypter) (buf : List Nat)
    (hAll : AllOk (split_encryption_code d.encryptCode)) :
    d.x_or_bytes buf =
      .ok (xorWithKeyAligned (keyByteValues (split_encryption_code d.encryptCode))
             (buf.take d.headerLen) ++ buf.drop d.headerLen) := by
  rw [Decrypter.x_or_bytes, x_or_go_eq _ _ _ hAll, take_min, drop_min]

theorem build_go_len :
    ∀ (n : Nat) (cs : List Char) (out : List Nat),
      build_go cs n = .ok out → out.length = n := by
  intro n
  induction n with
  | zero => intro cs out h; simp [build_go] at h; simp [← h]
  | succ n ih =>
    intro cs out h
    rw [build_go] at h
    cases hi : int16 (cs.take 2) with
    | error e => rw [hi] at h; simp at h
    | ok v =>
      rw [hi] at h
      cases hr : build_go (cs.drop 2) n with
      | error e => rw [hr] at h; simp at h
      | ok rest =>
        rw [hr] at h
        simp at h
        subst h
        simp [ih _ rest hr]

theorem build_fake_header_len {d : Decrypter} {fake : List Nat}
    (h : d.build_fake_header = .ok fake) : fake.length = d.headerLen :=
  build_go_len _ _ _ h

theorem verify_go_refl : ∀ (l : List Nat), verify_go l l = .ok true := by
  intro l
  induction l with
  | nil => rfl
  | cons a xs ih => simp [verify_go, ih]

theorem verify_go_mismatch :
    ∀ (a b : List Nat) (i : Nat) (w1 w2 : Nat), a.length = b.length →
      a[i]? = some w1 → b[i]? = some w2 → w1 ≠ w2 →
      verify_go a b = .ok false := by
  intro a
  induction a with
  | nil => intro b i w1 w2 _ h1; simp at h1
  | cons x xs ih =>
    intro b i w1 w2 hlen h1 h2 hne
    cases b with
    | nil => simp at hlen
    | cons y ys =>
      cases i with
      | zero =>
        simp at h1 h2
        subst h1; subst h2
        simp [verify_go, hne]
      | succ i =>
        simp at h1 h2
        by_cases hxy : x = y
        · simp [verify_go, hxy]
          simp at hlen
          exact ih ys i w1 w2 hlen h1 h2 hne
        · simp [verify_go, hxy]

theorem set_append_left {α : Type} :
    ∀ (l1 l2 : List α) (p : Nat) (v : α), p < l1.length →
      (l1 ++ l2).set p v = l1.set p v ++ l2 := by
  intro l1
  induction l1 with
  | nil => intro l2 p v h; simp at h
  | cons x xs ih =>
    intro l2 p v h
    cases p with
    | zero => simp
    | succ p =>
      simp only [List.cons_append, List.set_cons_succ]
      rw [ih l2 p v (by simpa using h)]

/-- Inversion of a successful `encrypt`. -/
theorem encrypt_ok_inv {d : Decrypter} {buf E : List Nat}
    (h : d.encrypt buf = .ok E) :
    buf ≠ [] ∧ ∃ xored fake,
      d.x_or_bytes buf = .ok xored ∧ d.build_fake_header = .ok fake ∧
      E = fake ++ xored := by
  rw [Decrypter.encrypt] at h
  split at h
  · simp at h
  · rename_i hb
    refine ⟨hb, ?_⟩
    split at h
    · simp at h
    · rename_i xored hx
      split at h
      · simp at h
      · rename_i fake hf
        dsimp only [] at h
        split at h
        · simp at h
        · simp at h
          exact ⟨xored, fake, hx, hf, h.symm⟩
        · simp at h

/-- A successful `encrypt` is the fake header followed by the XORed buffer. -/
theorem encrypt_ok {d : Decrypter} {buf xored fake : List Nat}
    (hb : buf ≠ []) (hx : d.x_or_bytes buf = .ok xored)
    (hf : d.build_fake_header = .ok fake) :
    d.encrypt buf = .ok (fake ++ xored) := by
  have hlen : fake.length = d.headerLen := build_fake_header_len hf
  have htake : (fake ++ xored).take d.headerLen = fake := by
    rw [← hlen, List.take_left]
  rw [Decrypter.encrypt]
  simp only [hb, if_false, hx, hf, Decrypter.verify_fake_header, htake, verify_go_refl]

/-- Inversion of a successful `decrypt`: the output always comes from
XORing the buffer with its first `header_len` bytes removed. -/
theorem decrypt_ok_inv {d : Decrypter} {buf out : List Nat}
    (h : d.decrypt buf = .ok out) :
    buf ≠ [] ∧ d.x_or_bytes (buf.drop d.headerLen) = .ok out := by
  rw [Decrypter.decrypt] at h
  split at h
  · simp at h
  · rename_i hb
    refine ⟨hb, ?_⟩
    split at h
    · exact h
    · split at h
      · simp at h
      · exact h
      · simp at h

/-- `decrypt` after `encrypt` restores the original buffer. -/
theorem decrypt_encrypt {d : Decrypter} {buf E : List Nat}
    (hflag : d.ignoreFakeHeader = false)
    (henc : d.encrypt buf = .ok E) :
    d.decrypt E = .ok buf := by
  obtain ⟨hb, xored, fake, hx, hf, hE⟩ := encrypt_ok_inv henc
  subst hE
  have hlenf : fake.length = d.headerLen := build_fake_header_len hf
  have hlenx : xored.length = buf.length := x_or_go_len _ _ _ _ hx
  have hne : fake ++ xored ≠ [] := by
    intro hcon
    rcases List.append_eq_nil.mp hcon with ⟨_, h2⟩
    apply hb
    have hbuf0 : buf.length = 0 := by rw [← hlenx, h2]; rfl
    exact List.length_eq_zero.mp hbuf0
  have htake : (fake ++ xored).take d.headerLen = fake := by
    rw [← hlenf, List.take_left]
  have hdrop : (fake ++ xored).drop d.headerLen = xored := by
    rw [← hlenf, List.drop_left]
  have hxinv : d.x_or_bytes xored = .ok buf := by
    rw [Decrypter.x_or_bytes] at hx ⊢
    rw [hlenx]
    exact x_or_go_invol _ _ _ _ hx
  rw [Decrypter.decrypt]
  simp only [hne, if_false, hflag, Decrypter.verify_fake_header, hf, htake,
    verify_go_refl, hdrop, hxinv, Bool.false_eq_true, if_false]

/-- Positions of the buffer at or past `min n css.length` pass through
the XOR loop unmodified. -/
theorem x_or_go_get :
    ∀ (n : Nat) (css : List (List Char)) (buf out : List Nat) (i : Nat),
      x_or_go css buf n = .ok out → (css.length ≤ i ∨ n ≤ i) →
      out[i]? = buf[i]? := by
  intro n
  induction n with
  | zero => intro css buf out i h _; simp [x_or_go] at h; simp [h]
  | succ n ih =>
    intro css buf out i h hrange
    match css, buf with
    | [], buf => simp [x_or_go] at h; simp [h]
    | c :: cs, [] => simp [x_or_go] at h; simp [← h]
    | c :: cs, b :: bs =>
      rw [x_or_go] at h
      cases hi : int16 c with
      | error e => rw [hi] at h; simp at h
      | ok v =>
        rw [hi] at h
        cases hr : x_or_go cs bs n with
        | error e => rw [hr] at h; simp at h
        | ok rest =>
          rw [hr] at h
          simp at h
          subst h
          cases i with
          | zero =>
            rcases hrange with h1 | h1 <;> simp at h1
          | succ i =>
            simp only [List.getElem?_cons_succ]
            exact ih cs bs rest i hr (by
              rcases hrange with h1 | h1
              · exact Or.inl (by simpa using Nat.le_of_succ_le_succ h1)
              · exact Or.inr (Nat.le_of_succ_le_succ h1))

/-! ### Claim theorems: the cipher -/

/-- C1: for every hex key `K` and every non-empty byte buffer `B`,
decrypting the result of encrypting `B` with a `Decrypter` constructed
with `K` returns exactly `B`. -/
theorem encrypt_decrypt_roundtrip (K : List Char) (hK : HexKey K)
    (B : List Nat) (hB : B ≠ []) :
    ((mkDecrypter K).encrypt B).bind (mkDecrypter K).decrypt = .ok B := by
  have hAll : AllOk (split_encryption_code (mkDecrypter K).encryptCode) :=
    allOk_split K hK
  have hx := x_or_bytes_eq (mkDecrypter K) B hAll
  have hf : (mkDecrypter K).build_fake_header =
      .ok [0x52, 0x50, 0x47, 0x4D, 0x56, 0, 0, 0, 0, 3, 1, 0, 0, 0, 0, 0] := by
    rfl
  have henc := encrypt_ok hB hx hf
  rw [henc]
  exact decrypt_encrypt rfl henc

theorem encrypt_decrypt_roundtrip_witness :
    ((mkDecrypter "1234ABCD".toList).encrypt [0, 1, 2, 3, 4]).bind
      (mkDecrypter "1234ABCD".toList).decrypt = .ok [0, 1, 2, 3, 4] :=
  encrypt_decrypt_roundtrip _ (by decide) _ (by decide)

/-- C2: a successful `encrypt` is exactly the fake header, then the
index-aligned XOR of the first `header_len` buffer bytes against the key
bytes, then the untouched remainder; in particular the spec's concrete
scenario with key `1234ABCD` and `header_len = 4`. -/
theorem encrypt_structure :
    (∀ (d : Decrypter) (B fake : List Nat), HexKey d.encryptCode →
        d.build_fake_header = .ok fake → B ≠ [] →
        d.encrypt B = .ok (fake ++
          xorWithKeyAligned (keyByteValues (split_encryption_code d.encryptCode))
            (B.take d.headerLen) ++ B.drop d.headerLen)) ∧
    ({ mkDecrypter "1234ABCD".toList with headerLen := 4 }).encrypt
        [0x00, 0x01, 0x02, 0x03, 0x04] =
      .ok ([0x52, 0x50, 0x47, 0x4D] ++
        [0x00 ^^^ 0x12, 0x01 ^^^ 0x34, 0x02 ^^^ 0xAB, 0x03 ^^^ 0xCD] ++ [0x04]) := by
  constructor
  · intro d B fake hK hf hB
    have hAll := allOk_split _ hK
    have hx := x_or_bytes_eq d B hAll
    have henc := encrypt_ok hB hx hf
    rw [henc, List.append_assoc]
  · decide

theorem encrypt_structure_witness :
    (mkDecrypter "1234ABCD".toList).encrypt [5, 6] =
      .ok ([0x52, 0x50, 0x47, 0x4D, 0x56, 0, 0, 0, 0, 3, 1, 0, 0, 0, 0, 0] ++
        xorWithKeyAligned (keyByteValues (split_encryption_code
            (mkDecrypter "1234ABCD".toList).encryptCode))
          ([5, 6].take (mkDecrypter "1234ABCD".toList).headerLen) ++
        [5, 6].drop (mkDecrypter "1234ABCD".toList).headerLen) :=
  encrypt_structure.1 _ _ _ (by decide) (by decide) (by decide)

/-- C3: changing any byte within the first `header_len` positions of an
encrypted buffer to a different value makes `decrypt` (with header
verification enabled) fail with the header-mismatch error. -/
theorem decrypt_tamper_header_mismatch (d : Decrypter) (B E : List Nat)
    (p v w : Nat) (henc : d.encrypt B = .ok E)
    (hflag : d.ignoreFakeHeader = false) (hp : p < d.headerLen)
    (hw : E[p]? = some w) (hv : v ≠ w) :
    d.decrypt (E.set p v) = .error .headerMismatch := by
  obtain ⟨hb, xored, fake, hx, hf, hE⟩ := encrypt_ok_inv henc
  subst hE
  have hlenf : fake.length = d.headerLen := build_fake_header_len hf
  have hplt : p < fake.length := by rw [hlenf]; exact hp
  have hwf : fake[p]? = some w := by
    rw [← hw]
    exact (List.getElem?_append_left hplt).symm
  have hset : (fake ++ xored).set p v = fake.set p v ++ xored :=
    set_append_left _ _ _ _ hplt
  have hne : (fake ++ xored).set p v ≠ [] := by
    intro hcon
    have hlen0 := congrArg List.length hcon
    simp only [List.length_set, List.length_append, List.length_nil] at hlen0
    omega
  have hlenss : fake.length = (fake.set p v).length := by simp
  have htake : ((fake ++ xored).set p v).take d.headerLen = fake.set p v := by
    rw [hset, ← hlenf, hlenss, List.take_left]
  have hgetset : (fake.set p v)[p]? = some v :=
    List.getElem?_set_eq_of_lt v hplt
  have hver : verify_go (fake.set p v) fake = .ok false :=
    verify_go_mismatch _ _ p v w (by simp) hgetset hwf hv
  rw [Decrypter.decrypt, if_neg hne, hflag]
  simp only [Bool.false_eq_true, if_false, Decrypter.verify_fake_header, hf,
    htake, hver]

theorem decrypt_tamper_header_mismatch_witness :
    (mkDecrypter "1234ABCD".toList).decrypt
      (([0x52, 0x50, 0x47, 0x4D, 0x56, 0, 0, 0, 0, 3, 1, 0, 0, 0, 0, 0,
         19, 54, 168] : List Nat).set 0 99) = .error .headerMismatch :=
  decrypt_tamper_header_mismatch _ [1, 2, 3] _ 0 99 82 (by decide) rfl
    (by decide) (by decide) (by decide)

/-- C4: with a key whose chunk sequence is shorter than `header_len`,
`x_or_bytes` succeeds on every buffer, preserves the length, and leaves
every position at or past `min(header_len, key_length, buffer_length)`
unmodified. -/
theorem x_or_bytes_short_key (d : Decrypter) (buf : List Nat)
    (hK : HexKey d.encryptCode)
    (hshort : (split_encryption_code d.encryptCode).length < d.headerLen) :
    ∃ out, d.x_or_bytes buf = .ok out ∧ out.length = buf.length ∧
      ∀ i, min d.headerLen
          (min (split_encryption_code d.encryptCode).length buf.length) ≤ i →
        out[i]? = buf[i]? := by
  have hAll := allOk_split _ hK
  have hx := x_or_bytes_eq d buf hAll
  have hxg := hx
  rw [Decrypter.x_or_bytes] at hxg
  refine ⟨_, hx, x_or_go_len _ _ _ _ hxg, ?_⟩
  intro i hi
  refine x_or_go_get _ _ _ _ i hxg ?_
  omega

theorem x_or_bytes_short_key_witness :
    ∃ out, (mkDecrypter "1234".toList).x_or_bytes [7, 7, 7] = .ok out ∧
      out.length = ([7, 7, 7] : List Nat).length ∧
      ∀ i, min (mkDecrypter "1234".toList).headerLen
          (min (split_encryption_code
              (mkDecrypter "1234".toList).encryptCode).length
            ([7, 7, 7] : List Nat).length) ≤ i →
        out[i]? = ([7, 7, 7] : List Nat)[i]? :=
  x_or_bytes_short_key _ _ (by decide) (by decide)

/-- C10: for any buffer at least `header_len` long, any successful
`decrypt` (verification enabled or not) removes exactly the first
`header_len` bytes: the output is `header_len` shorter and agrees with
the input shifted by `header_len` beyond the XOR-covered key positions;
with verification disabled, `decrypt` always succeeds. -/
theorem decrypt_frame (d : Decrypter) (B : List Nat)
    (hK : HexKey d.encryptCode) (hpos : 0 < d.headerLen)
    (hlen : d.headerLen ≤ B.length) :
    (d.ignoreFakeHeader = true → ∃ out, d.decrypt B = .ok out) ∧
    (∀ out, d.decrypt B = .ok out →
      out.length = B.length - d.headerLen ∧
      ∀ i, min d.headerLen (split_encryption_code d.encryptCode).length ≤ i →
        out[i]? = B[d.headerLen + i]?) := by
  have hAll := allOk_split _ hK
  have hBne : B ≠ [] := by
    intro h
    rw [h] at hlen
    simp at hlen
    omega
  constructor
  · intro hflag
    have hd : d.decrypt B = d.x_or_bytes (B.drop d.headerLen) := by
      rw [Decrypter.decrypt, if_neg hBne, hflag]
      simp
    exact ⟨_, hd.trans (x_or_bytes_eq d _ hAll)⟩
  · intro out hout
    obtain ⟨_, hx⟩ := decrypt_ok_inv hout
    have hxg := hx
    rw [Decrypter.x_or_bytes] at hxg
    constructor
    · rw [x_or_go_len _ _ _ _ hxg, List.length_drop]
    · intro i hi
      have hdlen : (B.drop d.headerLen).length = B.length - d.headerLen :=
        List.length_drop _ _
      have hgo := x_or_go_get _ _ _ _ i hxg (by omega)
      rw [hgo, List.getElem?_drop]

theorem decrypt_frame_witness :
    ∃ out, ({ mkDecrypter "1234ABCD".toList with
        ignoreFakeHeader := true }).decrypt (List.replicate 18 5) = .ok out :=
  (decrypt_frame _ _ (by decide) (by decide) (by decide)).1 rfl

/-- C5 counterexample: on a 17-byte buffer of ones, with the default
16-byte header length, `restore_png_header` returns just the 16-byte
canonical header — it drops `2 * header_len = 32` bytes, not
`header_len` as the claim states, so the claimed output (the canonical
header followed by the buffer from position 16 on) is not produced. -/
theorem restore_png_header_cex :
    (mkDecrypter []).restore_png_header (List.replicate 17 1) =
      .ok (get_normal_png_header 16) ∧
    (mkDecrypter []).restore_png_header (List.replicate 17 1) ≠
      .ok (get_normal_png_header 16 ++ (List.replicate 17 (1 : Nat)).drop 16) := by
  constructor <;> decide

/-- C5 amended: `restore_png_header` fails with the empty-input error on
an empty buffer; on a non-empty buffer it outputs the canonical PNG
header (truncated to the effective header length, capped at 16) followed
by the buffer's bytes from twice that length onward. -/
theorem restore_png_header_spec (d : Decrypter) (B : List Nat) :
    (B = [] → d.restore_png_header B = .error .emptyInput) ∧
    (B ≠ [] → ∃ out, d.restore_png_header B = .ok out ∧
      out.take (get_normal_png_header (d.pngHeaderLen.getD d.headerLen)).length =
        get_normal_png_header (d.pngHeaderLen.getD d.headerLen) ∧
      out.drop (get_normal_png_header (d.pngHeaderLen.getD d.headerLen)).length =
        B.drop ((get_normal_png_header (d.pngHeaderLen.getD d.headerLen)).length * 2) ∧
      out.length = (get_normal_png_header (d.pngHeaderLen.getD d.headerLen)).length +
        (B.length - (get_normal_png_header (d.pngHeaderLen.getD d.headerLen)).length * 2)) := by
  constructor
  · intro h
    subst h
    rfl
  · intro hB
    refine ⟨_, ?_, List.take_left _ _, List.drop_left _ _, ?_⟩
    · rw [Decrypter.restore_png_header, if_neg hB]
    · simp [List.length_append, List.length_drop]

theorem restore_png_header_spec_witness :
    ∃ out, (mkDecrypter []).restore_png_header [1, 2, 3] = .ok out ∧
      out.take (get_normal_png_header
          ((mkDecrypter []).pngHeaderLen.getD (mkDecrypter []).headerLen)).length =
        get_normal_png_header
          ((mkDecrypter []).pngHeaderLen.getD (mkDecrypter []).headerLen) ∧
      out.drop (get_normal_png_header
          ((mkDecrypter []).pngHeaderLen.getD (mkDecrypter []).headerLen)).length =
        ([1, 2, 3] : List Nat).drop ((get_normal_png_header
          ((mkDecrypter []).pngHeaderLen.getD (mkDecrypter []).headerLen)).length * 2) ∧
      out.length = (get_normal_png_header
          ((mkDecrypter []).pngHeaderLen.getD (mkDecrypter []).headerLen)).length +
        (([1, 2, 3] : List Nat).length - (get_normal_png_header
          ((mkDecrypter []).pngHeaderLen.getD (mkDecrypter []).headerLen)).length * 2) :=
  (restore_png_header_spec (mkDecrypter []) [1, 2, 3]).2 (by decide)

/-! ### Claim theorems: texture transcoding and output paths -/

theorem listFind_matchAt :
    ∀ (pat l : List Nat) (k : Nat), listFind pat l = some k →
      (l.drop k).take pat.length = pat := by
  intro pat l
  induction l with
  | nil =>
    intro k h
    by_cases hp : pat = []
    · rw [listFind, if_pos hp] at h
      simp at h
      subst h
      simp [hp]
    · rw [listFind, if_neg hp] at h
      simp at h
  | cons x rest ih =>
    intro k h
    rw [listFind] at h
    by_cases hx : (x :: rest).take pat.length = pat
    · rw [if_pos hx] at h
      simp at h
      subst h
      simpa using hx
    · rw [if_neg hx] at h
      simp at h
      obtain ⟨k', hk', rfl⟩ := h
      simpa using ih k' hk'

theorem listFind_lt_length :
    ∀ (pat l : List Nat) (k : Nat), listFind pat l = some k → pat ≠ [] →
      k < l.length := by
  intro pat l
  induction l with
  | nil =>
    intro k h hne
    rw [listFind, if_neg hne] at h
    simp at h
  | cons x rest ih =>
    intro k h hne
    rw [listFind] at h
    by_cases hx : (x :: rest).take pat.length = pat
    · rw [if_pos hx] at h
      simp at h
      subst h
      simp
    · rw [if_neg hx] at h
      simp at h
      obtain ⟨k', hk', rfl⟩ := h
      have := ih k' hk' hne
      simp
      omega

/-- C9: a blob whose first PNG-signature occurrence is at offset 37
transcodes to its tail from 37 (so the output starts with the signature
and is 37 bytes shorter); a blob containing neither the PNG signature
nor the RIFF-plus-WEBP marker pattern is persisted unchanged. -/
theorem convert_stex_spec :
    (∀ stex : List Nat, listFind pngSig stex = some 37 →
      convert_stex_to_png stex = .png (stex.drop 37) ∧
      (stex.drop 37).take 8 = pngSig ∧
      (stex.drop 37).length = stex.length - 37) ∧
    (∀ stex : List Nat, listFind pngSig stex = none →
      (∀ j, j < stex.length →
        ¬((stex.drop j).take 4 = riffSig ∧ (stex.drop (j + 8)).take 4 = webpTag)) →
      convert_stex_to_png stex = .raw stex) := by
  constructor
  · intro stex hfind
    refine ⟨?_, ?_, List.length_drop _ _⟩
    · rw [convert_stex_to_png, hfind]
    · have hm := listFind_matchAt _ _ _ hfind
      simpa using hm
  · intro stex hpng hno
    rw [convert_stex_to_png, hpng]
    cases hr : listFind riffSig stex with
    | none => rfl
    | some j =>
      have hm := listFind_matchAt _ _ _ hr
      have hlt := listFind_lt_length _ _ _ hr (by decide)
      have hnw : ¬((stex.drop (j + 8)).take 4 = webpTag) := by
        intro hw
        exact hno j hlt ⟨by simpa using hm, hw⟩
      simp [hnw]

theorem convert_stex_spec_witness :
    convert_stex_to_png (List.replicate 37 0 ++ pngSig) =
      .png ((List.replicate 37 0 ++ pngSig).drop 37) ∧
    convert_stex_to_png [0x52, 0x49, 0x46, 0x46, 1, 2, 3] =
      .raw [0x52, 0x49, 0x46, 0x46, 1, 2, 3] :=
  ⟨(convert_stex_spec.1 _ (by decide)).1,
   convert_stex_spec.2 _ (by decide) (by decide)⟩

/-- C8 (code bug): the extraction loop computes its destination as
`os.path.join(output_dir, path.replace('res://', ''))` with no check for
`..` segments and no UnsafePath error anywhere, so the member path
`../escape` resolves to a file named `escape` OUTSIDE the destination
root `out_extracted` — the resolved segments do not extend the root's
segments — and the member bytes are written there. -/
theorem godot_extract_path_traversal :
    godotOutputPath "out_extracted".toList "../escape".toList =
      "out_extracted/../escape".toList ∧
    resolvedSegments (godotOutputPath "out_extracted".toList "../escape".toList) =
      ["escape".toList] ∧
    (resolvedSegments (godotOutputPath "out_extracted".toList
        "../escape".toList)).take (resolvedSegments "out_extracted".toList).length ≠
      resolvedSegments "out_extracted".toList := by
  exact ⟨by decide, by decide, by decide⟩

/-! ### Helper lemmas: the PCK container -/

/-- Inversion of one successful step of the entry loop. -/
theorem readEntries_succ_inv {data : List Nat} {ps n pos : Nat}
    {es : List PckEntry}
    (h : readEntries data ps (n + 1) pos = .ok es) :
    ∃ pathLen off size rest,
      readU32 data pos = .ok pathLen ∧
      utf8Valid (readBytes data (pos + 4) pathLen) = true ∧
      readU64 data (pos + 4 + (readBytes data (pos + 4) pathLen).length) = .ok off ∧
      readU64 data (pos + 4 + (readBytes data (pos + 4) pathLen).length + 8) = .ok size ∧
      readEntries data ps n
        (pos + 4 + (readBytes data (pos + 4) pathLen).length + 16 +
          (readBytes data
            (pos + 4 + (readBytes data (pos + 4) pathLen).length + 16) 16).length) =
        .ok rest ∧
      es = ⟨readBytes data (pos + 4) pathLen, off + ps, size⟩ :: rest := by
  rw [readEntries] at h
  split at h
  · simp at h
  · rename_i pathLen h32
    try dsimp only [] at h
    split at h
    · rename_i hu
      try dsimp only [] at h
      split at h
      · rename_i off size h64a h64b
        try dsimp only [] at h
        split at h
        · rename_i rest hrec
          simp at h
          exact ⟨pathLen, off, size, rest, h32, hu, h64a, h64b, hrec, h.symm⟩
        · simp at h
      · simp at h
      · simp at h
    · simp at h

theorem readEntries_length :
    ∀ (n : Nat) (data : List Nat) (ps pos : Nat) (es : List PckEntry),
      readEntries data ps n pos = .ok es → es.length = n := by
  intro n
  induction n with
  | zero =>
    intro data ps pos es h
    rw [readEntries] at h
    simp at h
    simp [← h]
  | succ n ih =>
    intro data ps pos es h
    obtain ⟨pathLen, off, size, rest, _, _, _, _, hrec, rfl⟩ :=
      readEntries_succ_inv h
    simp [ih _ _ _ _ hrec]

/-- Inversion of a successful `openPck`. -/
theorem openPck_inv {data : List Nat} {s c : Nat} {es : List PckEntry}
    (h : openPck data = .ok (s, c, es)) :
    findPckStart data = .ok s ∧
    readU32 data (s + (readBytes data s 4).length + 80) = .ok c ∧
    readEntries data s c (s + (readBytes data s 4).length + 84) = .ok es := by
  rw [openPck] at h
  split at h
  · simp at h
  · rename_i ps hfind
    try dsimp only [] at h
    split at h
    · try dsimp only [] at h
      split at h
      · simp at h
      · rename_i count hcount
        split at h
        · simp at h
        · rename_i es2 hes
          simp at h
          obtain ⟨h1, h2, h3⟩ := h
          subst h1; subst h2; subst h3
          exact ⟨hfind, hcount, hes⟩
    · simp at h
    · simp at h
    · simp at h
    · simp at h

theorem readBytes_length (data : List Nat) (pos n : Nat) :
    (readBytes data pos n).length = min n (data.length - pos) := by
  simp [readBytes]

/-- Reading at an offset shifted past a host preamble reads the tail. -/
theorem readBytes_shift (host rest : List Nat) (p n : Nat) :
    readBytes (host ++ rest) (host.length + p) n = readBytes rest p n := by
  unfold readBytes
  rw [List.drop_append]

/-- A read that stays inside `C` ignores appended bytes. -/
theorem readBytes_within {C : List Nat} (F : List Nat) {p n : Nat}
    (h : p + n ≤ C.length) :
    readBytes (C ++ F) p n = readBytes C p n := by
  unfold readBytes
  rw [List.drop_append_eq_append_drop, List.take_append_eq_append_take]
  have h1 : (C.drop p).length = C.length - p := List.length_drop _ _
  have h2 : n - (C.drop p).length = 0 := by omega
  have h3 : p - C.length = 0 := by omega
  rw [h2, h3]
  simp

/-- Combined relocation: a read inside `C` is unchanged when `C` sits
between a host preamble and a footer. -/
theorem readBytes_app (host C F : List Nat) (p n : Nat) (h : p + n ≤ C.length) :
    readBytes (host ++ (C ++ F)) (host.length + p) n = readBytes C p n := by
  rw [readBytes_shift, readBytes_within F h]

theorem readU32_ok_bound {data : List Nat} {pos v : Nat}
    (h : readU32 data pos = .ok v) : pos + 4 ≤ data.length := by
  rw [readU32] at h
  split at h
  · rename_i hc
    rw [readBytes_length] at hc
    omega
  · simp at h

theorem readU64_ok_bound {data : List Nat} {pos v : Nat}
    (h : readU64 data pos = .ok v) : pos + 8 ≤ data.length := by
  rw [readU64] at h
  split at h
  · rename_i hc
    rw [readBytes_length] at hc
    omega
  · simp at h

theorem readU32_congr {d1 d2 : List Nat} {p1 p2 : Nat}
    (h : readBytes d1 p1 4 = readBytes d2 p2 4) :
    readU32 d1 p1 = readU32 d2 p2 := by
  rw [readU32, readU32, h]

theorem readU64_congr {d1 d2 : List Nat} {p1 p2 : Nat}
    (h : readBytes d1 p1 8 = readBytes d2 p2 8) :
    readU64 d1 p1 = readU64 d2 p2 := by
  rw [readU64, readU64, h]

theorem leBytes_length : ∀ (n v : Nat), (leBytes n v).length = n := by
  intro n
  induction n with
  | zero => intro v; rfl
  | succ n ih => intro v; simp [leBytes, ih]

theorem leVal_leBytes : ∀ (n v : Nat), leVal (leBytes n v) = v % 256 ^ n := by
  intro n
  induction n with
  | zero =>
    intro v
    simp [leBytes, leVal, Nat.mod_one]
  | succ n ih =>
    intro v
    have hstep : leVal (leBytes (n + 1) v) = v % 256 + 256 * leVal (leBytes n (v / 256)) := by
      simp [leBytes, leVal]
    rw [hstep, ih]
    have h256 : (256 : Nat) ^ (n + 1) = 256 * 256 ^ n := by ring
    rw [h256, Nat.mod_mul]

/-- Entry-table relocation: a table that parses inside `C` (base 0)
parses identically inside `host ++ C ++ F`, at base `host.length`, with
every entry offset shifted by the base. -/
theorem readEntries_reloc (host C F : List Nat) (hF : F.length = 12) :
    ∀ (n posC : Nat) (es : List PckEntry),
      readEntries C 0 n posC = .ok es →
      readEntries (host ++ (C ++ F)) host.length n (host.length + posC) =
        .ok (es.map (fun e => ⟨e.path, e.offset + host.length, e.size⟩)) := by
  intro n
  induction n with
  | zero =>
    intro posC es h
    rw [readEntries] at h
    simp at h
    subst h
    rw [readEntries]
    rfl
  | succ n ih =>
    intro posC es h
    obtain ⟨pathLen, off, size, rest, h32, hu, h64a, h64b, hrec, rfl⟩ :=
      readEntries_succ_inv h
    set pb := readBytes C (posC + 4) pathLen with hpbdef
    have hb32 : posC + 4 ≤ C.length := readU32_ok_bound h32
    have hb64a : posC + 4 + pb.length + 8 ≤ C.length := readU64_ok_bound h64a
    have hb64b : posC + 4 + pb.length + 8 + 8 ≤ C.length := readU64_ok_bound h64b
    have hpbl : pb.length = min pathLen (C.length - (posC + 4)) := by
      rw [hpbdef, readBytes_length]
    have hfull : pb.length = pathLen := by omega
    have e32 : readU32 (host ++ (C ++ F)) (host.length + posC) = .ok pathLen := by
      rw [readU32_congr (readBytes_app host C F posC 4 (by omega))]
      exact h32
    have hA4 : readBytes (host ++ (C ++ F)) (host.length + posC + 4) pathLen = pb := by
      have h1 : host.length + posC + 4 = host.length + (posC + 4) := by omega
      rw [h1, readBytes_app host C F (posC + 4) pathLen (by omega), hpbdef]
    have e64aA : readU64 (host ++ (C ++ F))
        (host.length + posC + 4 + pb.length) = .ok off := by
      have h1 : host.length + posC + 4 + pb.length =
          host.length + (posC + 4 + pb.length) := by omega
      rw [h1, readU64_congr (readBytes_app host C F (posC + 4 + pb.length) 8 (by omega))]
      exact h64a
    have e64bA : readU64 (host ++ (C ++ F))
        (host.length + posC + 4 + pb.length + 8) = .ok size := by
      have h1 : host.length + posC + 4 + pb.length + 8 =
          host.length + (posC + 4 + pb.length + 8) := by omega
      rw [h1, readU64_congr (readBytes_app host C F (posC + 4 + pb.length + 8) 8 (by omega))]
      exact h64b
    rw [readEntries]
    simp only [e32]
    simp only [hA4]
    rw [if_pos hu]
    simp only [e64aA, e64bA]
    cases n with
    | zero =>
      rw [readEntries] at hrec
      simp at hrec
      subst hrec
      simp [readEntries]
    | succ m =>
      obtain ⟨pl2, o2, s2, r2, h32n, _, _, _, _, _⟩ := readEntries_succ_inv hrec
      have hb2 := readU32_ok_bound h32n
      have hresCl : (readBytes C (posC + 4 + pb.length + 16) 16).length =
          min 16 (C.length - (posC + 4 + pb.length + 16)) :=
        readBytes_length _ _ _
      have hresC16 : (readBytes C (posC + 4 + pb.length + 16) 16).length = 16 := by
        omega
      have hALen : (host ++ (C ++ F)).length = host.length + (C.length + 12) := by
        simp [List.length_append, hF]
      have hresA16 : (readBytes (host ++ (C ++ F))
          (host.length + posC + 4 + pb.length + 16) 16).length = 16 := by
        rw [readBytes_length, hALen]
        omega
      have hposA : host.length + posC + 4 + pb.length + 16 +
          (readBytes (host ++ (C ++ F))
            (host.length + posC + 4 + pb.length + 16) 16).length =
          host.length + (posC + 4 + pb.length + 16 +
            (readBytes C (posC + 4 + pb.length + 16) 16).length) := by
        rw [hresA16, hresC16]
        omega
      rw [hposA, ih _ _ hrec]
      simp

/-- Full inversion of a successful `openPck`, including the version reads. -/
theorem openPck_inv_full {data : List Nat} {s c : Nat} {es : List PckEntry}
    (h : openPck data = .ok (s, c, es)) :
    findPckStart data = .ok s ∧
    (∃ v1, readU32 data (s + (readBytes data s 4).length) = .ok v1) ∧
    (∃ v2, readU32 data (s + (readBytes data s 4).length + 4) = .ok v2) ∧
    (∃ v3, readU32 data (s + (readBytes data s 4).length + 8) = .ok v3) ∧
    (∃ v4, readU32 data (s + (readBytes data s 4).length + 12) = .ok v4) ∧
    readU32 data (s + (readBytes data s 4).length + 80) = .ok c ∧
    readEntries data s c (s + (readBytes data s 4).length + 84) = .ok es := by
  rw [openPck] at h
  split at h
  · simp at h
  · rename_i ps hfind
    try dsimp only [] at h
    split at h
    · rename_i v1 v2 v3 v4 h1 h2 h3 h4
      try dsimp only [] at h
      split at h
      · simp at h
      · rename_i count hcount
        split at h
        · simp at h
        · rename_i es2 hes
          simp at h
          obtain ⟨hq1, hq2, hq3⟩ := h
          subst hq1; subst hq2; subst hq3
          exact ⟨hfind, ⟨v1, h1⟩, ⟨v2, h2⟩, ⟨v3, h3⟩, ⟨v4, h4⟩, hcount, hes⟩
    · simp at h
    · simp at h
    · simp at h
    · simp at h

/-- The magic probe on a self-extracting layout: magic absent at offset
0, footer present, so the base offset is recovered from the footer. -/
theorem findPckStart_appended (host C : List Nat)
    (hmagC : readBytes C 0 4 = gdpcMagic)
    (hbase : host.length < 256 ^ 8)
    (hA : readBytes (appendedPck host C) 0 4 ≠ gdpcMagic) :
    findPckStart (appendedPck host C) = .ok host.length := by
  have hCge4 : 4 ≤ C.length := by
    have hl := congrArg List.length hmagC
    rw [readBytes_length] at hl
    simp [gdpcMagic] at hl
    omega
  have h0 : appendedPck host C = host ++ (C ++ (leBytes 8 host.length ++ gdpcMagic)) := by
    unfold appendedPck
    simp [List.append_assoc]
  have hAlen : (appendedPck host C).length = host.length + (C.length + 12) := by
    rw [h0]
    simp [List.length_append, leBytes_length, gdpcMagic]
  have hfoot : readBytes (appendedPck host C) ((appendedPck host C).length - 12) 12 =
      leBytes 8 host.length ++ gdpcMagic := by
    have h1 : (appendedPck host C).length - 12 = host.length + C.length := by omega
    rw [h1, h0, readBytes_shift]
    unfold readBytes
    rw [List.drop_left]
    have h2 : (12 : Nat) = (leBytes 8 host.length ++ gdpcMagic).length := by
      simp [leBytes_length, gdpcMagic]
    rw [h2, List.take_length]
  have hdrop8 : (leBytes 8 host.length ++ gdpcMagic).drop 8 = gdpcMagic := by
    have h3 := List.drop_left (leBytes 8 host.length) gdpcMagic
    rwa [leBytes_length] at h3
  have htake8 : (leBytes 8 host.length ++ gdpcMagic).take 8 = leBytes 8 host.length := by
    have h4 := List.take_left (leBytes 8 host.length) gdpcMagic
    rwa [leBytes_length] at h4
  rw [findPckStart, if_neg hA, if_neg (by omega)]
  simp only [hfoot, hdrop8, htake8, leVal_leBytes]
  have hbase2 : host.length < 18446744073709551616 := by
    have h256 : (256 : Nat) ^ 8 = 18446744073709551616 := by norm_num
    rw [← h256]
    exact hbase
  simp [Nat.mod_eq_of_lt hbase2]

/-- Header and entry-table relocation for the self-extracting layout. -/
theorem openPck_appended_parse (host C : List Nat) (count : Nat)
    (es : List PckEntry)
    (hbase : host.length < 256 ^ 8)
    (hmagC : readBytes C 0 4 = gdpcMagic)
    (hopen : openPck C = .ok (0, count, es))
    (hA : readBytes (appendedPck host C) 0 4 ≠ gdpcMagic) :
    openPck (appendedPck host C) =
      .ok (host.length, count,
        es.map (fun e => ⟨e.path, e.offset + host.length, e.size⟩)) := by
  obtain ⟨hfindC, ⟨v1, hv1⟩, ⟨v2, hv2⟩, ⟨v3, hv3⟩, ⟨v4, hv4⟩, hcount, hes⟩ :=
    openPck_inv_full hopen
  have hlen4 : (readBytes C 0 4).length = 4 := by rw [hmagC]; rfl
  rw [hlen4] at hv1 hv2 hv3 hv4 hcount hes
  rw [show (0 : Nat) + 4 = 4 from rfl] at hv1 hv2 hv3 hv4 hcount hes
  rw [show (4 : Nat) + 4 = 8 from rfl] at hv2
  rw [show (4 : Nat) + 8 = 12 from rfl] at hv3
  rw [show (4 : Nat) + 12 = 16 from rfl] at hv4
  rw [show (4 : Nat) + 80 = 84 from rfl] at hcount
  rw [show (4 : Nat) + 84 = 88 from rfl] at hes
  have hb1 := readU32_ok_bound hv1
  have hb2 := readU32_ok_bound hv2
  have hb3 := readU32_ok_bound hv3
  have hb4 := readU32_ok_bound hv4
  have hbc := readU32_ok_bound hcount
  have h0 : appendedPck host C = host ++ (C ++ (leBytes 8 host.length ++ gdpcMagic)) := by
    unfold appendedPck
    simp [List.append_assoc]
  have hFlen : (leBytes 8 host.length ++ gdpcMagic).length = 12 := by
    simp [leBytes_length, gdpcMagic]
  have hmagA : readBytes (appendedPck host C) host.length 4 = gdpcMagic := by
    rw [h0]
    have h1 := readBytes_app host C (leBytes 8 host.length ++ gdpcMagic) 0 4 (by omega)
    rw [Nat.add_zero] at h1
    rw [h1, hmagC]
  have e1 : readU32 (appendedPck host C) (host.length + 4) = .ok v1 := by
    rw [h0, readU32_congr (readBytes_app host C _ 4 4 (by omega))]
    exact hv1
  have e2 : readU32 (appendedPck host C) (host.length + 4 + 4) = .ok v2 := by
    rw [h0, show host.length + 4 + 4 = host.length + 8 from by omega,
      readU32_congr (readBytes_app host C _ 8 4 (by omega))]
    exact hv2
  have e3 : readU32 (appendedPck host C) (host.length + 4 + 8) = .ok v3 := by
    rw [h0, show host.length + 4 + 8 = host.length + 12 from by omega,
      readU32_congr (readBytes_app host C _ 12 4 (by omega))]
    exact hv3
  have e4 : readU32 (appendedPck host C) (host.length + 4 + 12) = .ok v4 := by
    rw [h0, show host.length + 4 + 12 = host.length + 16 from by omega,
      readU32_congr (readBytes_app host C _ 16 4 (by omega))]
    exact hv4
  have ecnt : readU32 (appendedPck host C) (host.length + 4 + 80) = .ok count := by
    rw [h0, show host.length + 4 + 80 = host.length + 84 from by omega,
      readU32_congr (readBytes_app host C _ 84 4 (by omega))]
    exact hcount
  have hesA : readEntries (appendedPck host C) host.length count
      (host.length + 4 + 84) =
      .ok (es.map (fun e => ⟨e.path, e.offset + host.length, e.size⟩)) := by
    rw [h0, show host.length + 4 + 84 = host.length + 88 from by omega]
    exact readEntries_reloc host C _ hFlen count 88 es hes
  have hfindA := findPckStart_appended host C hmagC hbase hA
  rw [openPck]
  simp only [hfindA, hmagA, show (gdpcMagic : List Nat).length = 4 from rfl,
    e1, e2, e3, e4, ecnt, hesA]

/-- An in-bounds member read is unchanged by the appended layout. -/
theorem read_member_bytes_appended (host C : List Nat) (e : PckEntry)
    (hb : e.offset + e.size ≤ C.length) :
    read_member_bytes (appendedPck host C)
      ⟨e.path, e.offset + host.length, e.size⟩ = read_member_bytes C e := by
  have h0 : appendedPck host C = host ++ (C ++ (leBytes 8 host.length ++ gdpcMagic)) := by
    unfold appendedPck
    simp [List.append_assoc]
  simp only [read_member_bytes, h0]
  rw [Nat.add_comm e.offset host.length]
  exact readBytes_app host C _ e.offset e.size hb

/-! ### Claim theorems: the PCK container -/

/-- C6 counterexample: `cbuf` has a well-formed header at offset 0
declaring one entry, and enumeration yields that entry — but its
`offset + size` (0 + 1000000) far exceeds the 125-byte buffer, so the
claimed bound on every yielded descriptor is false: the code performs no
bounds check. -/
theorem openPck_unbounded_entry_cex :
    openPck cbuf = .ok (0, 1, [⟨[97], 0, 1000000⟩]) ∧
    cbuf.length < 0 + 1000000 := by
  exact ⟨by decide, by decide⟩

/-- C6 amended: a successfully opened container yields exactly as many
member descriptors as the entry count declared in its header; no
`offset + size ≤ buffer length` bound is checked or guaranteed. -/
theorem pck_entry_count (data : List Nat) (s c : Nat) (es : List PckEntry)
    (h : openPck data = .ok (s, c, es)) : es.length = c := by
  obtain ⟨_, _, hes⟩ := openPck_inv h
  exact readEntries_length _ _ _ _ _ hes

theorem pck_entry_count_witness :
    ([(⟨[97], 0, 1000000⟩ : PckEntry)] : List PckEntry).length = 1 :=
  pck_entry_count cbuf 0 1 _ (by decide)

/-- C7 counterexample: `cbuf` parses at offset 0 but holds an
out-of-bounds entry (size 1000000).  Appending it at base 1 to a 1-byte
host with the proper footer reproduces the same path and size, yet the
member bytes read through the appended buffer differ from those read
from the container alone (the clamped read now swallows the footer), so
the claimed entry-set equality fails as stated. -/
theorem openPck_appended_cex :
    openPck cbuf = .ok (0, 1, [⟨[97], 0, 1000000⟩]) ∧
    openPck (appendedPck [0] cbuf) = .ok (1, 1, [⟨[97], 1, 1000000⟩]) ∧
    read_member_bytes (appendedPck [0] cbuf) ⟨[97], 1, 1000000⟩ ≠
      read_member_bytes cbuf ⟨[97], 0, 1000000⟩ := by
  refine ⟨by decide, by decide, by decide⟩

/-- C7 amended: if the container `C` carries the magic at offset 0 and
parses there, the appended buffer (host, then `C`, then the footer
encoding the base) does not itself start with the magic, and every entry
stays within `C`, then opening the appended buffer recovers the same
count and the same entries — equal paths and sizes, offsets shifted by
the base — and reading any member through the appended buffer returns
exactly the bytes read from `C` alone. -/
theorem openPck_appended_equiv (host C : List Nat) (count : Nat)
    (es : List PckEntry)
    (hbase : host.length < 256 ^ 8)
    (hmagC : readBytes C 0 4 = gdpcMagic)
    (hopen : openPck C = .ok (0, count, es))
    (hA : readBytes (appendedPck host C) 0 4 ≠ gdpcMagic)
    (hbounds : ∀ e ∈ es, e.offset + e.size ≤ C.length) :
    openPck (appendedPck host C) =
      .ok (host.length, count,
        es.map (fun e => ⟨e.path, e.offset + host.length, e.size⟩)) ∧
    ∀ e ∈ es, read_member_bytes (appendedPck host C)
        ⟨e.path, e.offset + host.length, e.size⟩ = read_member_bytes C e :=
  ⟨openPck_appended_parse host C count es hbase hmagC hopen hA,
   fun e he => read_member_bytes_appended host C e (hbounds e he)⟩

theorem openPck_appended_equiv_witness :
    openPck (appendedPck [0] cbuf2) = .ok (1, 1, [⟨[97], 126, 5⟩]) ∧
    ∀ e ∈ [(⟨[97], 125, 5⟩ : PckEntry)],
      read_member_bytes (appendedPck [0] cbuf2)
        ⟨e.path, e.offset + 1, e.size⟩ = read_member_bytes cbuf2 e :=
  openPck_appended_equiv [0] cbuf2 1 [⟨[97], 125, 5⟩] (by decide) (by decide)
    (by decide) (by decide) (by decide)
